import Mathlib

/-!
Shallow embedding of the Titan payment system core (`AlgoProject.py`):
the `Purchase` value type (card validation, fee computation, billing-cycle
derivation) and the `PurchaseLog` container (binary-search insertion by date,
running aggregates, queries).  Amounts are modelled as rationals; Python
`datetime.date` is modelled as a year/month/day structure ordered
lexicographically, and the one piece of date arithmetic the source uses
(subtracting one day from a first-of-month date) is modelled by `predDay`.
-/

namespace Titan

/-- Model of Python `datetime.date`: a year/month/day triple. -/
structure Date where
  year : Nat
  month : Nat
  day : Nat
deriving DecidableEq, Repr

/-- Lexicographic key of a date, used to order dates the way Python orders
`datetime.date` values. -/
def Date.key (d : Date) : ℕ ×ₗ ℕ ×ₗ ℕ := toLex (d.year, toLex (d.month, d.day))

instance : LinearOrder Date :=
  LinearOrder.lift' Date.key (fun a b h => by
    cases a; cases b
    simpa [Date.key, Prod.ext_iff] using h)

/-- Model of the Gregorian leap-year rule used by Python `datetime`. -/
def isLeap (y : Nat) : Bool := (y % 4 == 0 && y % 100 != 0) || y % 400 == 0

/-- Number of days in a month, as in Python `datetime`. -/
def daysInMonth (y m : Nat) : Nat :=
  if m = 2 then (if isLeap y then 29 else 28)
  else if m = 4 ∨ m = 6 ∨ m = 9 ∨ m = 11 then 30
  else 31

/-- Model of Python `date - timedelta(days=1)` on a (valid) date. -/
def predDay (d : Date) : Date :=
  if 1 < d.day then ⟨d.year, d.month, d.day - 1⟩
  else if 1 < d.month then ⟨d.year, d.month - 1, daysInMonth d.year (d.month - 1)⟩
  else ⟨d.year - 1, 12, 31⟩

/-- Billing-cycle computation of `Purchase.__init__` (source lines 51-57):
start is the date with `day` replaced by `1`; the end date is the day before
the first of the following month, with December wrapping to January of the
next year. -/
def billingCycle (d : Date) : Date × Date :=
  let start_date : Date := ⟨d.year, d.month, 1⟩
  let end_date : Date :=
    if d.month = 12 then predDay ⟨d.year + 1, 1, 1⟩
    else predDay ⟨d.year, d.month + 1, 1⟩
  (start_date, end_date)

/-- The `card_rate` dictionary (source lines 14-18), as a partial map from
card identifiers to fee-rate percentages. -/
def card_rate : String → Option ℚ := fun c =>
  if c = "amex" then some (8/10)
  else if c = "visa" then some 1
  else if c = "discover" then some (5/10)
  else none

/-- `list(card_rate.keys())` in Python dict insertion order. -/
def card_rate_keys : List String := ["amex", "visa", "discover"]

/-- The global `convenience_fee_rate = 0.2` (source line 20). -/
def convenience_fee_rate : ℚ := 2/10

/-- An immutable purchase record with its derived fields, as built by
`Purchase.__init__`.  `status = false` means due, `status = true` paid. -/
structure Purchase where
  date : Date
  card : String
  status : Bool
  amount : ℚ
  transaction_fee : ℚ
  convenience_fee : ℚ
  final_amount : ℚ
  billing_cycle : Date × Date
deriving DecidableEq, Repr

/-- The error raised by the card-validation assert in `Purchase.__init__`
(source lines 35-36): it names the offending card and the supported set. -/
structure InvalidCardType where
  card : String
  supported : List String
deriving DecidableEq, Repr

/-- `Purchase.__init__` (source lines 29-57): validate the card, compute
fees (zero when the record is a payment), the final amount, and the billing
cycle. -/
def mkPurchase (date : Date) (card : String) (amount : ℚ) (status : Bool) :
    Except InvalidCardType Purchase :=
  match card_rate card with
  | none => Except.error ⟨card, card_rate_keys⟩
  | some r =>
    let tf : ℚ := if !status then amount * r / 100 else 0
    let cf : ℚ := if !status then amount * convenience_fee_rate / 100 else 0
    Except.ok { date := date, card := card, status := status, amount := amount,
                transaction_fee := tf, convenience_fee := cf,
                final_amount := amount + tf + cf,
                billing_cycle := billingCycle date }

/-- Out-of-range index fallback for list indexing in the embedding; the
correctness proofs show every index the source uses is in range. -/
def defaultPurchase : Purchase :=
  { date := ⟨1, 1, 1⟩, card := "visa", status := true, amount := 0,
    transaction_fee := 0, convenience_fee := 0, final_amount := 0,
    billing_cycle := billingCycle ⟨1, 1, 1⟩ }

/-- The `PurchaseLog` state (source lines 68-74). -/
structure PurchaseLog where
  log : List Purchase
  min_purchase : Option Purchase
  max_purchase : Option Purchase
  total_due : ℚ
  total_paid : ℚ
deriving Repr

/-- `PurchaseLog.__init__`: the fresh, empty log. -/
def PurchaseLog.init : PurchaseLog :=
  { log := [], min_purchase := none, max_purchase := none,
    total_due := 0, total_paid := 0 }

/-- Python `list.insert(i, x)` for a non-negative index (clamped to the end
when the index exceeds the length, as in Python). -/
def listInsert (l : List α) (i : Nat) (x : α) : List α :=
  l.take i ++ x :: l.drop i

/-- The `while _end - _start > 1` binary-search loop of `add_purchase`
(source lines 87-95), returning the final `(_start, _end)` pair; `_mid` is
`(_start + _end) / 2` and the loop narrows to `(_start, _mid - 1)` when
`log[_mid].date > purchase.date` and to `(_mid + 1, _end)` otherwise. -/
def bsLoop (log : List Purchase) (pd : Date) (s e : Nat) : Nat × Nat :=
  if h : 1 < e - s then
    if pd < (log.getD ((s + e) / 2) defaultPurchase).date then
      bsLoop log pd s ((s + e) / 2 - 1)
    else bsLoop log pd ((s + e) / 2 + 1) e
  else (s, e)
termination_by e - s
decreasing_by
  · omega
  · omega

/-- The insertion index chosen by `add_purchase` on a nonempty log
(source lines 87-101): run the binary search, then place the new record at
`_start`, `_end + 1` or `_end` according to the final comparisons. -/
def findInsertIdx (log : List Purchase) (pd : Date) : Nat :=
  let se := bsLoop log pd 0 (log.length - 1)
  if pd < (log.getD se.1 defaultPurchase).date then se.1
  else if (log.getD se.2 defaultPurchase).date ≤ pd then se.2 + 1
  else se.2

/-- `PurchaseLog.add_purchase` (source lines 76-116): insert the purchase at
its date-sorted position (index 0 on an empty log, else by binary search),
update `min_purchase`/`max_purchase` when the record is due, then add its
final amount to the matching running total. -/
def PurchaseLog.add_purchase (L : PurchaseLog) (p : Purchase) : PurchaseLog :=
  let L1 :=
    if L.log.length = 0 then
      let L' := { L with log := listInsert L.log 0 p }
      if !p.status then
        { L' with min_purchase := some p, max_purchase := some p }
      else L'
    else
      let i := findInsertIdx L.log p.date
      let L' := { L with log := listInsert L.log i p }
      if !p.status then
        let mn := match L.min_purchase with
          | none => some p
          | some m => if m.final_amount > p.final_amount then some p else some m
        let mx := match L.max_purchase with
          | none => some p
          | some m => if m.final_amount < p.final_amount then some p else some m
        { L' with min_purchase := mn, max_purchase := mx }
      else L'
  if !p.status then { L1 with total_due := L1.total_due + p.final_amount }
  else { L1 with total_paid := L1.total_paid + p.final_amount }

/-- `PurchaseLog.query_totals` (source lines 118-119). -/
def PurchaseLog.query_totals (L : PurchaseLog) : ℚ × ℚ :=
  (L.total_due, L.total_paid)

/-- `PurchaseLog.query_purchases` (source lines 121-122). -/
def PurchaseLog.query_purchases (L : PurchaseLog) (status : Bool) : List Purchase :=
  L.log.filter (fun p => p.status == status)

/-- The log reached from a fresh `PurchaseLog` by a sequence of
`add_purchase` calls. -/
def applyAll (ps : List Purchase) : PurchaseLog :=
  ps.foldl PurchaseLog.add_purchase PurchaseLog.init

/-! Specification-side definitions, used to state the claims. -/

/-- Non-strict date order between records, the sort relation of the log. -/
def dateLE (a b : Purchase) : Prop := a.date ≤ b.date

/-- The due records of a list, in the list's order. -/
def dueList (l : List Purchase) : List Purchase := l.filter (fun p => !p.status)

/-- The paid records of a list, in the list's order. -/
def paidList (l : List Purchase) : List Purchase := l.filter (fun p => p.status)

/-- Sum of `final_amount` over a list of records (a full scan). -/
def sumFinal (l : List Purchase) : ℚ := (l.map (·.final_amount)).sum

/-- The earliest record of `l` whose `final_amount` is minimal over `l`
(`none` when `l` is empty): the first element that is `≤` every element. -/
def firstMin (l : List Purchase) : Option Purchase :=
  l.find? (fun p => l.all (fun q => p.final_amount ≤ q.final_amount))

/-- The earliest record of `l` whose `final_amount` is maximal over `l`. -/
def firstMax (l : List Purchase) : Option Purchase :=
  l.find? (fun p => l.all (fun q => q.final_amount ≤ p.final_amount))

/-- One step of the `min_purchase` update of `add_purchase`
(source lines 104-107). -/
def specMin : Option Purchase → Purchase → Option Purchase
  | none, q => some q
  | some m, q => if m.final_amount > q.final_amount then some q else some m

/-- One step of the `max_purchase` update of `add_purchase`
(source lines 108-111). -/
def specMax : Option Purchase → Purchase → Option Purchase
  | none, q => some q
  | some m, q => if m.final_amount < q.final_amount then some q else some m

/-- Running best element keyed by `f` (smaller key wins, the incumbent is
kept on a tie), starting from `p`. -/
def bestF (f : Purchase → ℚ) (p : Purchase) (l : List Purchase) : Purchase :=
  l.foldl (fun m q => if f q < f m then q else m) p

/-- The earliest element of `l` whose `f`-key is minimal over `l`. -/
def firstF (f : Purchase → ℚ) (l : List Purchase) : Option Purchase :=
  l.find? (fun x => l.all (fun q => f x ≤ f q))

/-- A sample due record, used to instantiate theorems at concrete inputs. -/
def sampleDue : Purchase :=
  { date := ⟨2023, 5, 5⟩, card := "visa", status := false, amount := 100,
    transaction_fee := 1, convenience_fee := 1/5, final_amount := 506/5,
    billing_cycle := billingCycle ⟨2023, 5, 5⟩ }

/-- A sample paid record, used to instantiate theorems at concrete inputs. -/
def samplePaid : Purchase :=
  { date := ⟨2023, 6, 5⟩, card := "amex", status := true, amount := 50,
    transaction_fee := 0, convenience_fee := 0, final_amount := 50,
    billing_cycle := billingCycle ⟨2023, 6, 5⟩ }

/-! ## Correctness of the binary-search insertion -/

lemma bsLoop_spec (l : List Purchase) (pd : Date) :
    ∀ n s e : Nat, e - s ≤ n → s ≤ e → e < l.length →
    (s = 0 ∨ (l.getD (s - 1) defaultPurchase).date ≤ pd) →
    (e = l.length - 1 ∨ pd < (l.getD (e + 1) defaultPurchase).date) →
    (bsLoop l pd s e).1 ≤ (bsLoop l pd s e).2 ∧
    (bsLoop l pd s e).2 < l.length ∧
    (bsLoop l pd s e).2 - (bsLoop l pd s e).1 ≤ 1 ∧
    ((bsLoop l pd s e).1 = 0 ∨
      (l.getD ((bsLoop l pd s e).1 - 1) defaultPurchase).date ≤ pd) ∧
    ((bsLoop l pd s e).2 = l.length - 1 ∨
      pd < (l.getD ((bsLoop l pd s e).2 + 1) defaultPurchase).date) := by
  intro n
  induction n with
  | zero =>
    intro s e hn hse hel h3 h4
    rw [bsLoop, dif_neg (by omega)]
    exact ⟨hse, hel, by omega, h3, h4⟩
  | succ n ih =>
    intro s e hn hse hel h3 h4
    by_cases h : 1 < e - s
    · rw [bsLoop, dif_pos h]
      by_cases hc : pd < (l.getD ((s + e) / 2) defaultPurchase).date
      · rw [if_pos hc]
        have hmid : (s + e) / 2 - 1 + 1 = (s + e) / 2 := by omega
        exact ih s ((s + e) / 2 - 1) (by omega) (by omega) (by omega) h3
          (Or.inr (by rw [hmid]; exact hc))
      · rw [if_neg hc]
        have hmid : (s + e) / 2 + 1 - 1 = (s + e) / 2 := by omega
        exact ih ((s + e) / 2 + 1) e (by omega) (by omega) hel
          (Or.inr (by rw [hmid]; exact not_lt.mp hc)) h4
    · rw [bsLoop, dif_neg h]
      exact ⟨hse, hel, by omega, h3, h4⟩

lemma findInsertIdx_spec (l : List Purchase) (pd : Date) (hne : l ≠ [])
    (hsort : List.Pairwise dateLE l) :
    findInsertIdx l pd ≤ l.length ∧
    (∀ j (hj : j < l.length), j < findInsertIdx l pd → l[j].date ≤ pd) ∧
    (∀ j (hj : j < l.length), findInsertIdx l pd ≤ j → pd < l[j].date) := by
  have hlen : 0 < l.length := List.length_pos.mpr hne
  have hmono : ∀ (i j : Nat) (hi : i < l.length) (hj : j < l.length),
      i ≤ j → l[i].date ≤ l[j].date := by
    intro i j hi hj hij
    rcases Nat.lt_or_eq_of_le hij with h | h
    · exact List.pairwise_iff_getElem.mp hsort i j hi hj h
    · subst h; exact le_refl _
  obtain ⟨hr1, hr2, hr3, hr4, hr5⟩ :=
    bsLoop_spec l pd l.length 0 (l.length - 1) (by omega) (by omega)
      (by omega) (Or.inl rfl) (Or.inl rfl)
  rw [findInsertIdx]
  set r := bsLoop l pd 0 (l.length - 1) with hr
  have h1lt : r.1 < l.length := lt_of_le_of_lt hr1 hr2
  have hgd1 : l.getD r.1 defaultPurchase = l[r.1] := List.getD_eq_getElem l _ h1lt
  have hgd2 : l.getD r.2 defaultPurchase = l[r.2] := List.getD_eq_getElem l _ hr2
  by_cases hc1 : pd < (l.getD r.1 defaultPurchase).date
  · rw [if_pos hc1]
    refine ⟨le_of_lt h1lt, ?_, ?_⟩
    · intro j hj hji
      have hne0 : r.1 ≠ 0 := by omega
      have h3' := hr4.resolve_left hne0
      have hj1 : r.1 - 1 < l.length := by omega
      rw [List.getD_eq_getElem l _ hj1] at h3'
      exact le_trans (hmono j (r.1 - 1) hj hj1 (by omega)) h3'
    · intro j hj hij
      rw [hgd1] at hc1
      exact lt_of_lt_of_le hc1 (hmono r.1 j h1lt hj hij)
  · rw [if_neg hc1]
    rw [hgd1] at hc1
    have hc1' : l[r.1].date ≤ pd := not_lt.mp hc1
    by_cases hc2 : (l.getD r.2 defaultPurchase).date ≤ pd
    · rw [if_pos hc2]
      rw [hgd2] at hc2
      refine ⟨by omega, ?_, ?_⟩
      · intro j hj hji
        exact le_trans (hmono j r.2 hj hr2 (by omega)) hc2
      · intro j hj hij
        have hne : r.2 ≠ l.length - 1 := by omega
        have h4' := hr5.resolve_left hne
        have hj2 : r.2 + 1 < l.length := by omega
        rw [List.getD_eq_getElem l _ hj2] at h4'
        exact lt_of_lt_of_le h4' (hmono (r.2 + 1) j hj2 hj (by omega))
    · rw [if_neg hc2]
      rw [hgd2] at hc2
      have hc2' : pd < l[r.2].date := not_le.mp hc2
      have hne12 : r.1 ≠ r.2 := by
        intro h
        have h21 : l[r.2].date ≤ pd :=
          le_trans (hmono r.2 r.1 hr2 h1lt (by omega)) hc1'
        exact absurd hc2' (not_lt.mpr h21)
      have heq : r.2 = r.1 + 1 := by omega
      refine ⟨le_of_lt hr2, ?_, ?_⟩
      · intro j hj hji
        exact le_trans (hmono j r.1 hj h1lt (by omega)) hc1'
      · intro j hj hij
        exact lt_of_lt_of_le hc2' (hmono r.2 j hr2 hj hij)

lemma insert_bounds (l : List Purchase) (pd : Date) (hne : l ≠ [])
    (hsort : List.Pairwise dateLE l) :
    (∀ q ∈ l.take (findInsertIdx l pd), q.date ≤ pd) ∧
    (∀ q ∈ l.drop (findInsertIdx l pd), pd < q.date) := by
  obtain ⟨hle, hbef, haft⟩ := findInsertIdx_spec l pd hne hsort
  constructor
  · intro q hq
    obtain ⟨j, hj, hjq⟩ := List.mem_iff_getElem.mp hq
    have hjl : j < l.length := by
      have := List.length_take_le (findInsertIdx l pd) l
      omega
    have hji : j < findInsertIdx l pd := by
      rw [List.length_take] at hj; omega
    have hget : (l.take (findInsertIdx l pd))[j] = l[j] := List.getElem_take l (h := hj)
    rw [hget] at hjq
    rw [← hjq]
    exact hbef j hjl hji
  · intro q hq
    obtain ⟨j, hj, hjq⟩ := List.mem_iff_getElem.mp hq
    have hjl : findInsertIdx l pd + j < l.length := by
      rw [List.length_drop] at hj; omega
    have hget : (l.drop (findInsertIdx l pd))[j] = l[findInsertIdx l pd + j] := by
      rw [List.getElem_drop]
    rw [hget] at hjq
    rw [← hjq]
    exact haft (findInsertIdx l pd + j) hjl (by omega)

lemma pairwise_listInsert (l : List Purchase) (p : Purchase) (i : Nat)
    (hsort : List.Pairwise dateLE l)
    (h1 : ∀ q ∈ l.take i, q.date ≤ p.date)
    (h2 : ∀ q ∈ l.drop i, p.date < q.date) :
    List.Pairwise dateLE (listInsert l i p) := by
  have hsplit : List.Pairwise dateLE (l.take i ++ l.drop i) := by
    rw [List.take_append_drop]; exact hsort
  obtain ⟨hta, hdr, hcross⟩ := List.pairwise_append.mp hsplit
  rw [listInsert, List.pairwise_append]
  refine ⟨hta, ?_, ?_⟩
  · rw [List.pairwise_cons]
    exact ⟨fun q hq => le_of_lt (h2 q hq), hdr⟩
  · intro a ha b hb
    rcases List.mem_cons.mp hb with rfl | hb'
    · exact h1 a ha
    · exact hcross a ha b hb'

lemma listInsert_perm (l : List α) (i : Nat) (x : α) :
    (listInsert l i x).Perm (x :: l) := by
  rw [listInsert]
  exact List.perm_middle.trans (by rw [List.take_append_drop])

lemma listInsert_length (l : List α) (i : Nat) (x : α) :
    (listInsert l i x).length = l.length + 1 := by
  simp [listInsert]
  omega

/-! ## Projections of `add_purchase` -/

lemma add_purchase_log (L : PurchaseLog) (p : Purchase) :
    (L.add_purchase p).log =
      if L.log.length = 0 then [p]
      else listInsert L.log (findInsertIdx L.log p.date) p := by
  rw [PurchaseLog.add_purchase]
  by_cases h0 : L.log.length = 0
  · have hnil : L.log = [] := List.length_eq_zero.mp h0
    cases hp : p.status <;> simp [h0, hp, hnil, listInsert]
  · cases hp : p.status <;> simp [h0, hp]

lemma add_purchase_total_due (L : PurchaseLog) (p : Purchase) :
    (L.add_purchase p).total_due =
      if p.status then L.total_due else L.total_due + p.final_amount := by
  rw [PurchaseLog.add_purchase]
  by_cases h0 : L.log.length = 0 <;> cases hp : p.status <;> simp [h0, hp]

lemma add_purchase_total_paid (L : PurchaseLog) (p : Purchase) :
    (L.add_purchase p).total_paid =
      if p.status then L.total_paid + p.final_amount else L.total_paid := by
  rw [PurchaseLog.add_purchase]
  by_cases h0 : L.log.length = 0 <;> cases hp : p.status <;> simp [h0, hp]

lemma add_purchase_min (L : PurchaseLog) (p : Purchase)
    (h0 : L.log = [] → L.min_purchase = none) :
    (L.add_purchase p).min_purchase =
      if p.status then L.min_purchase else specMin L.min_purchase p := by
  rw [PurchaseLog.add_purchase]
  by_cases hl : L.log.length = 0
  · rw [h0 (List.length_eq_zero.mp hl)]
    cases hp : p.status <;> simp [hl, hp, specMin]
  · cases hp : p.status <;> cases hm : L.min_purchase <;> simp [hl, hp, specMin]

lemma add_purchase_max (L : PurchaseLog) (p : Purchase)
    (h0 : L.log = [] → L.max_purchase = none) :
    (L.add_purchase p).max_purchase =
      if p.status then L.max_purchase else specMax L.max_purchase p := by
  rw [PurchaseLog.add_purchase]
  by_cases hl : L.log.length = 0
  · rw [h0 (List.length_eq_zero.mp hl)]
    cases hp : p.status <;> simp [hl, hp, specMax]
  · cases hp : p.status <;> cases hm : L.max_purchase <;> simp [hl, hp, specMax]

lemma applyAll_append_one (ps : List Purchase) (p : Purchase) :
    applyAll (ps ++ [p]) = (applyAll ps).add_purchase p := by
  rw [applyAll, applyAll, List.foldl_append]
  rfl

/-! ## List helpers for the aggregates -/

lemma dueList_cons (p : Purchase) (l : List Purchase) :
    dueList (p :: l) = if p.status then dueList l else p :: dueList l := by
  cases hp : p.status <;> simp [dueList, List.filter_cons, hp]

lemma paidList_cons (p : Purchase) (l : List Purchase) :
    paidList (p :: l) = if p.status then p :: paidList l else paidList l := by
  cases hp : p.status <;> simp [paidList, List.filter_cons, hp]

lemma sumFinal_cons (p : Purchase) (l : List Purchase) :
    sumFinal (p :: l) = p.final_amount + sumFinal l := by
  simp [sumFinal]

lemma sumFinal_perm {l₁ l₂ : List Purchase} (h : l₁.Perm l₂) :
    sumFinal l₁ = sumFinal l₂ := by
  rw [sumFinal, sumFinal]
  exact (h.map _).sum_eq

/-- The master reachability invariant: after any sequence of insertions the
log is a permutation of the inserted records, sorted by date; the totals
agree with a full scan of the log; and `min_purchase`/`max_purchase` are the
folds of the due records in insertion order. -/
lemma applyAll_inv (ps : List Purchase) :
    (applyAll ps).log.Perm ps ∧
    List.Pairwise dateLE (applyAll ps).log ∧
    (applyAll ps).total_due = sumFinal (dueList (applyAll ps).log) ∧
    (applyAll ps).total_paid = sumFinal (paidList (applyAll ps).log) ∧
    (applyAll ps).min_purchase = (dueList ps).foldl specMin none ∧
    (applyAll ps).max_purchase = (dueList ps).foldl specMax none := by
  induction ps using List.reverseRecOn with
  | nil =>
    refine ⟨List.Perm.refl _, ?_⟩
    simp [applyAll, PurchaseLog.init, dueList, paidList, sumFinal]
  | append_singleton ps p ih =>
    obtain ⟨hperm, hsort, hdue, hpaid, hmin, hmax⟩ := ih
    rw [applyAll_append_one]
    set L := applyAll ps with hL
    have hnil_ps : L.log = [] → ps = [] := by
      intro h
      rw [h] at hperm
      exact hperm.nil_eq.symm
    have hnil_min : L.log = [] → L.min_purchase = none := by
      intro h
      rw [hmin, hnil_ps h]
      rfl
    have hnil_max : L.log = [] → L.max_purchase = none := by
      intro h
      rw [hmax, hnil_ps h]
      rfl
    have hlog := add_purchase_log L p
    have hplog : (L.add_purchase p).log.Perm (p :: L.log) := by
      rw [hlog]
      by_cases h0 : L.log.length = 0
      · rw [if_pos h0, List.length_eq_zero.mp h0]
      · rw [if_neg h0]
        exact listInsert_perm _ _ _
    have hdl : dueList (ps ++ [p]) = dueList ps ++ dueList [p] := by
      simp [dueList, List.filter_append]
    refine ⟨?_, ?_, ?_, ?_, ?_, ?_⟩
    · exact hplog.trans ((hperm.cons p).trans (List.perm_append_singleton p ps).symm)
    · rw [hlog]
      by_cases h0 : L.log.length = 0
      · rw [if_pos h0]
        exact List.pairwise_singleton _ _
      · rw [if_neg h0]
        have hne : L.log ≠ [] := fun h => h0 (by rw [h]; rfl)
        obtain ⟨hb1, hb2⟩ := insert_bounds L.log p.date hne hsort
        exact pairwise_listInsert L.log p _ hsort hb1 hb2
    · have h1 : sumFinal (dueList ((L.add_purchase p).log)) =
          sumFinal (dueList (p :: L.log)) :=
        sumFinal_perm (hplog.filter _)
      rw [add_purchase_total_due, h1, dueList_cons]
      cases hp : p.status
      · rw [if_neg (by simp), if_neg (by simp [hp]), sumFinal_cons, hdue, add_comm]
      · rw [if_pos rfl, if_pos (by simp [hp]), hdue]
    · have h1 : sumFinal (paidList ((L.add_purchase p).log)) =
          sumFinal (paidList (p :: L.log)) :=
        sumFinal_perm (hplog.filter _)
      rw [add_purchase_total_paid, h1, paidList_cons]
      cases hp : p.status
      · rw [if_neg (by simp), if_neg (by simp [hp]), hpaid]
      · rw [if_pos rfl, if_pos (by simp [hp]), sumFinal_cons, hpaid, add_comm]
    · rw [add_purchase_min L p hnil_min, hdl, List.foldl_append, hmin]
      cases hp : p.status
      · rw [if_neg (by simp), show dueList [p] = [p] by simp [dueList, hp]]
        rfl
      · rw [if_pos rfl, show dueList [p] = [] by simp [dueList, hp]]
        rfl
    · rw [add_purchase_max L p hnil_max, hdl, List.foldl_append, hmax]
      cases hp : p.status
      · rw [if_neg (by simp), show dueList [p] = [p] by simp [dueList, hp]]
        rfl
      · rw [if_pos rfl, show dueList [p] = [] by simp [dueList, hp]]
        rfl

/-! ## The incremental min/max folds compute the earliest extremum -/

lemma specMin_some (m q : Purchase) :
    specMin (some m) q =
      some (if (fun r => r.final_amount) q < (fun r => r.final_amount) m then q else m) := by
  by_cases h : q.final_amount < m.final_amount
  · rw [specMin, if_pos h, if_pos (by simpa using h)]
  · rw [specMin, if_neg h, if_neg (by simpa using h)]

lemma specMax_some (m q : Purchase) :
    specMax (some m) q =
      some (if (fun r => -r.final_amount) q < (fun r => -r.final_amount) m then q else m) := by
  by_cases h : m.final_amount < q.final_amount
  · rw [specMax, if_pos h, if_pos (by simpa using h)]
  · rw [specMax, if_neg h, if_neg (by simpa using h)]

lemma bestF_cons (f : Purchase → ℚ) (p q : Purchase) (l : List Purchase) :
    bestF f p (q :: l) = bestF f (if f q < f p then q else p) l := rfl

lemma bestF_mem (f : Purchase → ℚ) (p : Purchase) (l : List Purchase) :
    bestF f p l ∈ p :: l := by
  induction l generalizing p with
  | nil => exact List.mem_singleton.mpr rfl
  | cons q t ih =>
    rw [bestF_cons]
    by_cases h : f q < f p
    · rw [if_pos h]
      rcases List.mem_cons.mp (ih q) with h' | h'
      · rw [h']; exact List.mem_cons_of_mem _ (List.mem_cons_self _ _)
      · exact List.mem_cons_of_mem _ (List.mem_cons_of_mem _ h')
    · rw [if_neg h]
      rcases List.mem_cons.mp (ih p) with h' | h'
      · rw [h']; exact List.mem_cons_self _ _
      · exact List.mem_cons_of_mem _ (List.mem_cons_of_mem _ h')

lemma bestF_le (f : Purchase → ℚ) (p : Purchase) (l : List Purchase) :
    f (bestF f p l) ≤ f p ∧ ∀ q ∈ l, f (bestF f p l) ≤ f q := by
  induction l generalizing p with
  | nil => exact ⟨le_refl _, by intro q hq; cases hq⟩
  | cons q t ih =>
    rw [bestF_cons]
    by_cases h : f q < f p
    · rw [if_pos h]
      obtain ⟨h1, h2⟩ := ih q
      refine ⟨le_trans h1 (le_of_lt h), ?_⟩
      intro r hr
      rcases List.mem_cons.mp hr with rfl | hr'
      · exact h1
      · exact h2 r hr'
    · rw [if_neg h]
      obtain ⟨h1, h2⟩ := ih p
      refine ⟨h1, ?_⟩
      intro r hr
      rcases List.mem_cons.mp hr with rfl | hr'
      · exact le_trans h1 (not_lt.mp h)
      · exact h2 r hr'

lemma bestF_eq_head (f : Purchase → ℚ) (p : Purchase) (l : List Purchase)
    (h : ∀ q ∈ l, f p ≤ f q) : bestF f p l = p := by
  induction l with
  | nil => rfl
  | cons q t ih =>
    rw [bestF_cons, if_neg (not_lt.mpr (h q (List.mem_cons_self _ _)))]
    exact ih (fun r hr => h r (List.mem_cons_of_mem _ hr))

lemma bestF_congr (f : Purchase → ℚ) (a b q : Purchase) (l : List Purchase)
    (hq : q ∈ l) (ha : f q < f a) (hb : f q < f b) :
    bestF f a l = bestF f b l := by
  induction l generalizing a b with
  | nil => cases hq
  | cons c t ih =>
    rw [bestF_cons, bestF_cons]
    rcases List.mem_cons.mp hq with rfl | hq'
    · rw [if_pos ha, if_pos hb]
    · by_cases hca : f c < f a
      · by_cases hcb : f c < f b
        · rw [if_pos hca, if_pos hcb]
        · rw [if_pos hca, if_neg hcb]
          exact ih c b hq' (lt_of_lt_of_le hb (not_lt.mp hcb)) hb
      · by_cases hcb : f c < f b
        · rw [if_neg hca, if_pos hcb]
          exact ih a c hq' ha (lt_of_lt_of_le ha (not_lt.mp hca))
        · rw [if_neg hca, if_neg hcb]
          exact ih a b hq' ha hb

lemma all_congr_mem {α : Type} {f g : α → Bool} :
    ∀ (l : List α), (∀ x ∈ l, f x = g x) → l.all f = l.all g := by
  intro l
  induction l with
  | nil => intro _; rfl
  | cons a t ih =>
    intro h
    rw [List.all_cons, List.all_cons, h a (List.mem_cons_self _ _),
      ih (fun x hx => h x (List.mem_cons_of_mem _ hx))]

lemma findq_congr_mem {α : Type} {f g : α → Bool} :
    ∀ (l : List α), (∀ x ∈ l, f x = g x) → l.find? f = l.find? g := by
  intro l
  induction l with
  | nil => intro _; rfl
  | cons a t ih =>
    intro h
    cases hfa : f a
    · rw [List.find?_cons_of_neg _ (by rw [hfa]; exact Bool.false_ne_true),
        List.find?_cons_of_neg _ (by
          rw [← h a (List.mem_cons_self _ _), hfa]; exact Bool.false_ne_true),
        ih (fun x hx => h x (List.mem_cons_of_mem _ hx))]
    · rw [List.find?_cons_of_pos _ hfa,
        List.find?_cons_of_pos _ (by rw [← h a (List.mem_cons_self _ _)]; exact hfa)]

lemma firstF_cons (f : Purchase → ℚ) (p : Purchase) (l : List Purchase) :
    firstF f (p :: l) = some (bestF f p l) := by
  induction l generalizing p with
  | nil =>
    rw [firstF, List.find?_cons_of_pos _ (by simp)]
    rfl
  | cons h t ih =>
    by_cases hall : ∀ q ∈ h :: t, f p ≤ f q
    · rw [bestF_eq_head f p (h :: t) hall, firstF,
        List.find?_cons_of_pos _ (by
          rw [List.all_eq_true]
          intro q hq
          rcases List.mem_cons.mp hq with rfl | hq'
          · simp
          · simpa using hall q hq')]
    · push_neg at hall
      obtain ⟨q, hq, hlt⟩ := hall
      rw [firstF, List.find?_cons_of_neg _ (by
        intro hcontra
        rw [List.all_eq_true] at hcontra
        have := hcontra q (List.mem_cons_of_mem _ hq)
        rw [decide_eq_true_iff] at this
        exact absurd hlt (not_lt.mpr this))]
      have hcong : (h :: t).find? (fun x => (p :: h :: t).all (fun r => f x ≤ f r)) =
          (h :: t).find? (fun x => (h :: t).all (fun r => f x ≤ f r)) := by
        apply findq_congr_mem
        intro x hx
        cases hxall : (h :: t).all (fun r => decide (f x ≤ f r))
        · rw [List.all_cons, hxall, Bool.and_false]
        · have hxq : f x ≤ f q := by
            rw [List.all_eq_true] at hxall
            simpa using hxall q hq
          rw [List.all_cons, hxall, Bool.and_true, decide_eq_true_iff.mpr
            (le_of_lt (lt_of_le_of_lt hxq hlt))]
      rw [hcong]
      have hrest : (h :: t).find? (fun x => (h :: t).all (fun r => f x ≤ f r)) =
          firstF f (h :: t) := rfl
      rw [hrest, ih h]
      congr 1
      rw [bestF_cons]
      by_cases hc : f h < f p
      · rw [if_pos hc]
      · rw [if_neg hc]
        have hq' : q ∈ t := by
          rcases List.mem_cons.mp hq with rfl | hq'
          · exact absurd (lt_of_lt_of_le hlt (not_lt.mp hc)) (lt_irrefl _)
          · exact hq'
        exact bestF_congr f h p q t hq'
          (lt_of_lt_of_le hlt (not_lt.mp hc)) hlt

lemma foldl_specMin_some (l : List Purchase) :
    ∀ m : Purchase, l.foldl specMin (some m) =
      some (bestF (fun r => r.final_amount) m l) := by
  induction l with
  | nil => intro m; rfl
  | cons q t ih =>
    intro m
    rw [List.foldl_cons, specMin_some, ih, bestF_cons]

lemma foldl_specMax_some (l : List Purchase) :
    ∀ m : Purchase, l.foldl specMax (some m) =
      some (bestF (fun r => -r.final_amount) m l) := by
  induction l with
  | nil => intro m; rfl
  | cons q t ih =>
    intro m
    rw [List.foldl_cons, specMax_some, ih, bestF_cons]

lemma firstMax_eq_firstF (l : List Purchase) :
    firstMax l = firstF (fun r => -r.final_amount) l := by
  rw [firstMax, firstF]
  apply findq_congr_mem
  intro x _
  apply all_congr_mem
  intro q _
  rw [decide_eq_decide]
  exact (neg_le_neg_iff).symm

lemma foldl_specMin_eq_firstMin (l : List Purchase) :
    l.foldl specMin none = firstMin l := by
  cases l with
  | nil => rfl
  | cons p t =>
    rw [List.foldl_cons, show specMin none p = some p from rfl, foldl_specMin_some,
      show firstMin (p :: t) = firstF (fun r => r.final_amount) (p :: t) from rfl,
      firstF_cons]

lemma foldl_specMax_eq_firstMax (l : List Purchase) :
    l.foldl specMax none = firstMax l := by
  cases l with
  | nil => rfl
  | cons p t =>
    rw [List.foldl_cons, show specMax none p = some p from rfl, foldl_specMax_some,
      firstMax_eq_firstF, firstF_cons]

lemma firstMin_mem {l : List Purchase} {m : Purchase} (h : firstMin l = some m) :
    m ∈ l := List.mem_of_find?_eq_some h

lemma firstMax_mem {l : List Purchase} {m : Purchase} (h : firstMax l = some m) :
    m ∈ l := List.mem_of_find?_eq_some h

lemma firstMin_le {l : List Purchase} {m : Purchase} (h : firstMin l = some m) :
    ∀ q ∈ l, m.final_amount ≤ q.final_amount := by
  have hp := List.find?_some h
  rw [List.all_eq_true] at hp
  intro q hq
  simpa using hp q hq

lemma firstMax_ge {l : List Purchase} {m : Purchase} (h : firstMax l = some m) :
    ∀ q ∈ l, q.final_amount ≤ m.final_amount := by
  have hp := List.find?_some h
  rw [List.all_eq_true] at hp
  intro q hq
  simpa using hp q hq

lemma firstMin_eq_none_iff (l : List Purchase) : firstMin l = none ↔ l = [] := by
  cases l with
  | nil => simp [firstMin]
  | cons p t =>
    rw [show firstMin (p :: t) = firstF (fun r => r.final_amount) (p :: t) from rfl,
      firstF_cons]
    simp

lemma firstMax_eq_none_iff (l : List Purchase) : firstMax l = none ↔ l = [] := by
  cases l with
  | nil => simp [firstMax]
  | cons p t =>
    rw [firstMax_eq_firstF, firstF_cons]
    simp

/-! ## The claims -/

/-- C1: starting from a fresh `PurchaseLog`, after each `add_purchase` the
records are non-decreasing by date, and every insertion is stable: the new
record is placed after all records whose date is `≤` its own (in particular
after all equal-date records) and before all records with a strictly later
date, the old records keeping their relative order. -/
theorem claim_C1 : ∀ ps : List Purchase,
    List.Pairwise dateLE (applyAll ps).log ∧
    ∀ p : Purchase, ∃ l₁ l₂ : List Purchase,
      (applyAll ps).log = l₁ ++ l₂ ∧
      (applyAll (ps ++ [p])).log = l₁ ++ p :: l₂ ∧
      (∀ q ∈ l₁, q.date ≤ p.date) ∧
      (∀ q ∈ l₂, p.date < q.date) := by
  intro ps
  obtain ⟨hperm, hsort, -⟩ := applyAll_inv ps
  refine ⟨hsort, ?_⟩
  intro p
  rw [applyAll_append_one]
  set L := applyAll ps
  rw [add_purchase_log]
  by_cases h0 : L.log.length = 0
  · exact ⟨[], [], by rw [List.length_eq_zero.mp h0]; rfl, by rw [if_pos h0]; rfl,
      fun q hq => absurd hq (List.not_mem_nil q),
      fun q hq => absurd hq (List.not_mem_nil q)⟩
  · have hne : L.log ≠ [] := fun h => h0 (by rw [h]; rfl)
    obtain ⟨hb1, hb2⟩ := insert_bounds L.log p.date hne hsort
    exact ⟨L.log.take _, L.log.drop _, (List.take_append_drop _ _).symm,
      by rw [if_neg h0]; rfl, hb1, hb2⟩

/-- C2: starting from a fresh `PurchaseLog`, after each `add_purchase` the
pair returned by `query_totals` equals the sums of `final_amount` over the
due and the paid records of a full scan of the log; on a fresh log
`query_totals` returns `(0, 0)`. -/
theorem claim_C2 : ∀ ps : List Purchase,
    (applyAll ps).query_totals =
      (sumFinal (dueList (applyAll ps).log), sumFinal (paidList (applyAll ps).log)) ∧
    PurchaseLog.init.query_totals = (0, 0) := by
  intro ps
  obtain ⟨-, -, hdue, hpaid, -⟩ := applyAll_inv ps
  exact ⟨by rw [PurchaseLog.query_totals, hdue, hpaid], rfl⟩

/-- C3: starting from a fresh `PurchaseLog`, after each `add_purchase` the
field `min_purchase` (resp. `max_purchase`) is the earliest-inserted record
of minimal (resp. maximal) `final_amount` among the due records inserted so
far, `none` when there is none: an equal later record never replaces the
incumbent. -/
theorem claim_C3 : ∀ ps : List Purchase,
    (applyAll ps).min_purchase = firstMin (dueList ps) ∧
    (applyAll ps).max_purchase = firstMax (dueList ps) := by
  intro ps
  obtain ⟨-, -, -, -, hmin, hmax⟩ := applyAll_inv ps
  exact ⟨by rw [hmin, foldl_specMin_eq_firstMin],
    by rw [hmax, foldl_specMax_eq_firstMax]⟩

/-- C8: `query_purchases status` returns exactly the subsequence of the log
whose records have the given status (so the `true` and `false` queries
partition the log), in stored order. -/
theorem claim_C8 : ∀ (L : PurchaseLog) (st : Bool),
    (L.query_purchases st).Sublist L.log ∧
    (∀ p : Purchase, p ∈ L.query_purchases st ↔ p ∈ L.log ∧ p.status = st) ∧
    (L.query_purchases true).length + (L.query_purchases false).length =
      L.log.length := by
  intro L st
  refine ⟨List.filter_sublist _, ?_, ?_⟩
  · intro p
    rw [PurchaseLog.query_purchases, List.mem_filter, beq_iff_eq]
  · have hsplit : ∀ l : List Purchase,
        (l.filter (fun p => p.status)).length +
          (l.filter (fun p => !p.status)).length = l.length := by
      intro l
      induction l with
      | nil => rfl
      | cons a t ih => cases ha : a.status <;> simp [List.filter_cons, ha] <;> omega
    have := hsplit L.log
    simpa [PurchaseLog.query_purchases] using this

/-- C9: in every state reachable from a fresh log, `min_purchase` and
`max_purchase` are both absent or both present; each, when present, is a
due record of the log, and the minimum's final amount is at most the
maximum's. -/
theorem claim_C9 : ∀ ps : List Purchase,
    ((applyAll ps).min_purchase = none ↔ (applyAll ps).max_purchase = none) ∧
    (∀ m, (applyAll ps).min_purchase = some m →
      m ∈ (applyAll ps).log ∧ m.status = false) ∧
    (∀ m, (applyAll ps).max_purchase = some m →
      m ∈ (applyAll ps).log ∧ m.status = false) ∧
    (∀ m M, (applyAll ps).min_purchase = some m →
      (applyAll ps).max_purchase = some M →
      m.final_amount ≤ M.final_amount) := by
  intro ps
  obtain ⟨hperm, -, -, -, hmin, hmax⟩ := applyAll_inv ps
  have hmin' : (applyAll ps).min_purchase = firstMin (dueList ps) := by
    rw [hmin, foldl_specMin_eq_firstMin]
  have hmax' : (applyAll ps).max_purchase = firstMax (dueList ps) := by
    rw [hmax, foldl_specMax_eq_firstMax]
  refine ⟨?_, ?_, ?_, ?_⟩
  · rw [hmin', hmax', firstMin_eq_none_iff, firstMax_eq_none_iff]
  · intro m hm
    rw [hmin'] at hm
    obtain ⟨hmem, hst⟩ := List.mem_filter.mp (firstMin_mem hm)
    exact ⟨hperm.mem_iff.mpr hmem, by simpa using hst⟩
  · intro m hm
    rw [hmax'] at hm
    obtain ⟨hmem, hst⟩ := List.mem_filter.mp (firstMax_mem hm)
    exact ⟨hperm.mem_iff.mpr hmem, by simpa using hst⟩
  · intro m M hm hM
    rw [hmin'] at hm
    rw [hmax'] at hM
    exact firstMin_le hm M (firstMax_mem hM)

/-- C10: `add_purchase` only touches the aggregates of the inserted
record's status — a paid insertion leaves `total_due`, `min_purchase` and
`max_purchase` unchanged, a due insertion leaves `total_paid` unchanged —
and in every case the log grows by exactly one element, the old records
unmodified and in their old order. -/
theorem claim_C10 : ∀ (L : PurchaseLog) (p : Purchase),
    (p.status = true →
      (L.add_purchase p).total_due = L.total_due ∧
      (L.add_purchase p).min_purchase = L.min_purchase ∧
      (L.add_purchase p).max_purchase = L.max_purchase) ∧
    (p.status = false → (L.add_purchase p).total_paid = L.total_paid) ∧
    (L.add_purchase p).log.length = L.log.length + 1 ∧
    (∃ l₁ l₂, L.log = l₁ ++ l₂ ∧ (L.add_purchase p).log = l₁ ++ p :: l₂) := by
  intro L p
  refine ⟨?_, ?_, ?_, ?_⟩
  · intro hp
    refine ⟨by rw [add_purchase_total_due, if_pos hp], ?_, ?_⟩
    · rw [PurchaseLog.add_purchase]
      by_cases h0 : L.log.length = 0 <;> simp [h0, hp]
    · rw [PurchaseLog.add_purchase]
      by_cases h0 : L.log.length = 0 <;> simp [h0, hp]
  · intro hp
    rw [add_purchase_total_paid, if_neg (by rw [hp]; exact Bool.false_ne_true)]
  · rw [add_purchase_log]
    by_cases h0 : L.log.length = 0
    · rw [if_pos h0, h0]
      rfl
    · rw [if_neg h0, listInsert_length]
  · rw [add_purchase_log]
    by_cases h0 : L.log.length = 0
    · exact ⟨[], [], by rw [List.length_eq_zero.mp h0]; rfl, by rw [if_pos h0]; rfl⟩
    · exact ⟨L.log.take _, L.log.drop _, (List.take_append_drop _ _).symm,
        by rw [if_neg h0]; rfl⟩

lemma pairwise_date_mono {l : List Purchase} (hsort : List.Pairwise dateLE l)
    (i j : Nat) (hi : i < l.length) (hj : j < l.length) (hij : i ≤ j) :
    l[i].date ≤ l[j].date := by
  rcases Nat.lt_or_eq_of_le hij with h | h
  · exact List.pairwise_iff_getElem.mp hsort i j hi hj h
  · subst h; exact le_refl _

/-- C4: when the card is supported, a due purchase carries
`transaction_fee = amount * rate / 100` and
`convenience_fee = amount * 0.2 / 100`, with
`final_amount = amount + transaction_fee + convenience_fee` (for
`amount = 1000` on `visa` this is `10`, `2` and `1012`); a paid purchase
carries zero fees and `final_amount = amount`. -/
theorem claim_C4 : ∀ (dt : Date) (c : String) (a r : ℚ), card_rate c = some r →
    (∃ p, mkPurchase dt c a false = Except.ok p ∧
      p.transaction_fee = a * r / 100 ∧
      p.convenience_fee = a * (2 / 10) / 100 ∧
      p.final_amount = a + p.transaction_fee + p.convenience_fee) ∧
    (∃ p, mkPurchase dt c a true = Except.ok p ∧
      p.transaction_fee = 0 ∧ p.convenience_fee = 0 ∧ p.final_amount = a) ∧
    (∃ p, mkPurchase dt "visa" 1000 false = Except.ok p ∧
      p.transaction_fee = 10 ∧ p.convenience_fee = 2 ∧ p.final_amount = 1012) := by
  intro dt c a r h
  have hdue : mkPurchase dt c a false = Except.ok
      { date := dt, card := c, status := false, amount := a,
        transaction_fee := a * r / 100,
        convenience_fee := a * convenience_fee_rate / 100,
        final_amount := a + a * r / 100 + a * convenience_fee_rate / 100,
        billing_cycle := billingCycle dt } := by
    rw [mkPurchase, h]
    rfl
  have hpaid : mkPurchase dt c a true = Except.ok
      { date := dt, card := c, status := true, amount := a,
        transaction_fee := 0, convenience_fee := 0,
        final_amount := a + 0 + 0,
        billing_cycle := billingCycle dt } := by
    rw [mkPurchase, h]
    rfl
  have hvisa : mkPurchase dt "visa" 1000 false = Except.ok
      { date := dt, card := "visa", status := false, amount := 1000,
        transaction_fee := 1000 * 1 / 100,
        convenience_fee := 1000 * convenience_fee_rate / 100,
        final_amount := 1000 + 1000 * 1 / 100 + 1000 * convenience_fee_rate / 100,
        billing_cycle := billingCycle dt } := by
    rw [mkPurchase, show card_rate "visa" = some 1 from rfl]
    rfl
  refine ⟨⟨_, hdue, rfl, rfl, rfl⟩, ⟨_, hpaid, rfl, rfl, by show a + 0 + 0 = a; ring⟩,
    ⟨_, hvisa, by norm_num, by norm_num [convenience_fee_rate],
      by show (1000 : ℚ) + 1000 * 1 / 100 + 1000 * convenience_fee_rate / 100 = 1012
         norm_num [convenience_fee_rate]⟩⟩

theorem claim_C4_witness :
    card_rate "visa" = some 1 ∧
    ∃ p, mkPurchase ⟨2023, 5, 1⟩ "visa" 1000 false = Except.ok p ∧
      p.transaction_fee = 10 ∧ p.convenience_fee = 2 ∧ p.final_amount = 1012 :=
  ⟨rfl, (claim_C4 ⟨2023, 5, 1⟩ "visa" 1000 1 rfl).2.2⟩

/-- C5: the billing cycle of any purchase is the pair of the first and the
last day of the month of its date, with December wrapping into the same
year's December 31 and February respecting leap years; in particular
2023-12-15 yields [2023-12-01, 2023-12-31], 2023-02-10 yields
[2023-02-01, 2023-02-28] and 2024-02-10 yields [2024-02-01, 2024-02-29]. -/
theorem claim_C5 : ∀ (y m d : Nat), 1 ≤ m → m ≤ 12 →
    billingCycle ⟨y, m, d⟩ = (⟨y, m, 1⟩, ⟨y, m, daysInMonth y m⟩) ∧
    (∀ (dt : Date) (c : String) (a : ℚ) (st : Bool) (p : Purchase),
      mkPurchase dt c a st = Except.ok p → p.billing_cycle = billingCycle dt) ∧
    billingCycle ⟨2023, 12, 15⟩ = (⟨2023, 12, 1⟩, ⟨2023, 12, 31⟩) ∧
    billingCycle ⟨2023, 2, 10⟩ = (⟨2023, 2, 1⟩, ⟨2023, 2, 28⟩) ∧
    billingCycle ⟨2024, 2, 10⟩ = (⟨2024, 2, 1⟩, ⟨2024, 2, 29⟩) := by
  intro y m d h1 h12
  refine ⟨?_, ?_, by decide, by decide, by decide⟩
  · by_cases hm : m = 12
    · subst hm
      simp [billingCycle, predDay, daysInMonth]
    · have hmlt : 1 < m + 1 := by omega
      simp [billingCycle, predDay, hm, hmlt]
  · intro dt c a st p hp
    cases hcr : card_rate c with
    | none => rw [mkPurchase, hcr] at hp; cases hp
    | some r =>
      rw [mkPurchase, hcr] at hp
      obtain rfl := (Except.ok.injEq _ _).mp hp
      rfl

theorem claim_C5_witness :
    billingCycle ⟨2024, 2, 10⟩ = (⟨2024, 2, 1⟩, ⟨2024, 2, daysInMonth 2024 2⟩) :=
  (claim_C5 2024 2 10 (by decide) (by decide)).1

/-- C6: constructing a purchase fails with an `InvalidCardType` naming the
offending card and the supported set exactly when the card is not one of
`amex`, `visa`, `discover` (in particular `mastercard` fails); a supported
card never fails. -/
theorem claim_C6 : ∀ (dt : Date) (c : String) (a : ℚ) (st : Bool),
    ((∃ p, mkPurchase dt c a st = Except.ok p) ↔ c ∈ card_rate_keys) ∧
    (c ∉ card_rate_keys →
      mkPurchase dt c a st = Except.error ⟨c, card_rate_keys⟩) ∧
    mkPurchase dt "mastercard" a st =
      Except.error ⟨"mastercard", card_rate_keys⟩ := by
  intro dt c a st
  have hkey : card_rate c = none ↔ c ∉ card_rate_keys := by
    by_cases h1 : c = "amex"
    · subst h1; simp [card_rate, card_rate_keys]
    · by_cases h2 : c = "visa"
      · subst h2; simp [card_rate, card_rate_keys]
      · by_cases h3 : c = "discover"
        · subst h3; simp [card_rate, card_rate_keys]
        · simp [card_rate, card_rate_keys, h1, h2, h3]
  refine ⟨⟨?_, ?_⟩, ?_, ?_⟩
  · rintro ⟨p, hp⟩
    by_contra hc
    rw [mkPurchase, hkey.mpr hc] at hp
    cases hp
  · intro hc
    have hnn : card_rate c ≠ none := fun h => (hkey.mp h) hc
    obtain ⟨r, hr⟩ := Option.ne_none_iff_exists'.mp hnn
    exact ⟨_, by rw [mkPurchase, hr]⟩
  · intro hc
    rw [mkPurchase, hkey.mpr hc]
  · rw [mkPurchase, show card_rate "mastercard" = none from rfl]

theorem claim_C6_witness :
    mkPurchase ⟨2023, 1, 1⟩ "mastercard" 5 false =
      Except.error ⟨"mastercard", card_rate_keys⟩ :=
  (claim_C6 ⟨2023, 1, 1⟩ "mastercard" 5 false).2.1 (by decide)

/-- C7: on a date-sorted log, `add_purchase` resolves the edge cases as
specified — an empty log gets the record at index 0, a record dated
strictly before the first record goes to index 0, and a record dated on or
after the last record goes to the end. -/
theorem claim_C7 : ∀ (L : PurchaseLog) (p : Purchase),
    List.Pairwise dateLE L.log →
    (L.log = [] → (L.add_purchase p).log = [p]) ∧
    (∀ q qs, L.log = q :: qs → p.date < q.date →
      (L.add_purchase p).log = p :: L.log) ∧
    (∀ h : L.log ≠ [], (L.log.getLast h).date ≤ p.date →
      (L.add_purchase p).log = L.log ++ [p]) := by
  intro L p hsort
  refine ⟨?_, ?_, ?_⟩
  · intro h
    rw [add_purchase_log, if_pos (by rw [h]; rfl)]
  · intro q qs hq hlt
    have hne : L.log ≠ [] := by rw [hq]; exact List.cons_ne_nil _ _
    have hlen : ¬L.log.length = 0 := fun h => hne (List.length_eq_zero.mp h)
    rw [add_purchase_log, if_neg hlen]
    obtain ⟨hle, hbef, -⟩ := findInsertIdx_spec L.log p.date hne hsort
    have h0lt : 0 < L.log.length := List.length_pos.mpr hne
    have hi0 : findInsertIdx L.log p.date = 0 := by
      by_contra hne0
      have h2 := hbef 0 h0lt (by omega)
      have hq0 : L.log[0] = q := by
        have h4 : L.log[0] = (q :: qs)[0] := by congr 1
        rw [h4]
        rfl
      rw [hq0] at h2
      exact absurd hlt (not_lt.mpr h2)
    rw [hi0]
    rfl
  · intro hne hlast
    have hlen : ¬L.log.length = 0 := fun h => hne (List.length_eq_zero.mp h)
    rw [add_purchase_log, if_neg hlen]
    obtain ⟨hle, -, haft⟩ := findInsertIdx_spec L.log p.date hne hsort
    have hlpos : 0 < L.log.length := List.length_pos.mpr hne
    have hlast_eq : L.log.getLast hne = L.log[L.log.length - 1] :=
      List.getLast_eq_getElem L.log hne
    have hi : findInsertIdx L.log p.date = L.log.length := by
      by_contra hneq
      have hilt : findInsertIdx L.log p.date < L.log.length := by omega
      have h2 := haft _ hilt (le_refl _)
      have h3 : L.log[findInsertIdx L.log p.date].date ≤
          L.log[L.log.length - 1].date :=
        pairwise_date_mono hsort _ _ hilt (by omega) (by omega)
      rw [← hlast_eq] at h3
      exact absurd (lt_of_lt_of_le h2 (le_trans h3 hlast)) (lt_irrefl _)
    rw [hi, listInsert, List.take_length, List.drop_length]

theorem claim_C7_witness :
    ((applyAll [sampleDue]).add_purchase samplePaid).log =
      (applyAll [sampleDue]).log ++ [samplePaid] :=
  (claim_C7 (applyAll [sampleDue]) samplePaid
      (by rw [show (applyAll [sampleDue]).log = [sampleDue] from rfl]
          exact List.pairwise_singleton _ _)).2.2
    (by rw [show (applyAll [sampleDue]).log = [sampleDue] from rfl]
        exact List.cons_ne_nil _ _)
    (by decide)

theorem claim_C9_witness :
    sampleDue ∈ (applyAll [sampleDue]).log ∧ sampleDue.status = false :=
  (claim_C9 [sampleDue]).2.1 sampleDue rfl

theorem claim_C10_witness :
    (PurchaseLog.init.add_purchase samplePaid).total_due =
      PurchaseLog.init.total_due ∧
    (PurchaseLog.init.add_purchase samplePaid).min_purchase =
      PurchaseLog.init.min_purchase ∧
    (PurchaseLog.init.add_purchase samplePaid).max_purchase =
      PurchaseLog.init.max_purchase :=
  (claim_C10 PurchaseLog.init samplePaid).1 rfl

end Titan
